import Mathlib

/-!
Shallow embedding of the ephemeral conversation-context cache with per-user
display-name resolution from `src/messageFetch` (the TypeScript variant with
`getUserDisplayName`, `fetchConversationFromDiscord`, `ephemeralFetchConversation`).

Modelling conventions:
- Machine time (`Date.now()`, `createdTimestamp`) is `Int` milliseconds.
- A JavaScript `Map` is an insertion-ordered association list with unique keys:
  `set` replaces the value of an existing key in place, otherwise appends;
  iteration (the eviction sweep) visits entries in insertion order, so a sweep
  that deletes exactly the visited entries failing a predicate is a `filter`.
- JavaScript string truthiness (`s ? a : b`, `a || b`) is modelled explicitly:
  `null`/`undefined` and the empty string are falsy.
- `channel.messages.fetch`, `guild.members.fetch` and `guilds.cache.get` are
  external collaborators, supplied by an `Env` record; fallible calls return
  `Except`.  The two counters in `St` instrument how many times each upstream
  collaborator was invoked.
- `Array.prototype.sort` with comparator `a.createdTimestamp - b.createdTimestamp`
  is (per the ECMAScript spec) a stable sort by `createdTimestamp`; the unique
  such function is the stable insertion sort `sortMessages` below.
- `async`/`await` control flow is sequential state passing: the source runs on a
  single-threaded cooperative scheduler and each claim concerns one call.
-/

namespace KindroidDiscord

/-- JS truthiness of a nullable string: `null` and `""` are falsy. -/
def jsTruthy : Option String → Bool
  | some s => s ≠ ""
  | none => false

/-- JS `a || b` for a nullable string `a` and string fallback `b`. -/
def jsOr (a : Option String) (b : String) : String :=
  if jsTruthy a then a.getD "" else b

/-- Author metadata carried on a Discord message (`msg.author`). -/
structure Author where
  id : String
  username : String
  globalName : Option String
deriving Repr, DecidableEq

/-- A raw Discord message as far as the fetch path reads it. -/
structure Msg where
  author : Author
  guildId : Option String
  content : String
  createdTimestamp : Int
  createdAtISO : String
deriving Repr, DecidableEq

/-- Normalized chat turn handed to the inference call (`ConversationMessage`). -/
structure ConversationMessage where
  username : String
  text : String
  timestamp : String
deriving Repr, DecidableEq

/-- Entry of the conversation cache (`CacheEntry`). -/
structure CacheEntry where
  lastFetchTime : Int
  messages : List ConversationMessage
deriving Repr, DecidableEq

/-- Entry of the display-name cache (`DisplayNameCacheEntry`). -/
structure DisplayNameCacheEntry where
  displayName : String
  lastFetchTime : Int
deriving Repr, DecidableEq

/-- A community member record as read by the resolver (`member.nickname`). -/
structure GuildMember where
  nickname : Option String
deriving Repr, DecidableEq

/-- Insertion-ordered association list modelling a JS `Map`. -/
abbrev JsMap (α : Type) := List (String × α)

/-- `Map.prototype.get`. -/
def jsGet {α : Type} (m : JsMap α) (k : String) : Option α :=
  (m.find? (fun p => p.1 == k)).map (fun p => p.2)

/-- `Map.prototype.set`: replace in place if the key exists, else append. -/
def jsSet {α : Type} (m : JsMap α) (k : String) (v : α) : JsMap α :=
  match m with
  | [] => [(k, v)]
  | p :: rest => if p.1 == k then (k, v) :: rest else p :: jsSet rest k v

/-- Keys of a JS map are pairwise distinct (holds for every map built from
`∅` by `jsSet`/delete; stated as an explicit invariant hypothesis). -/
def UniqueKeys {α : Type} (m : JsMap α) : Prop :=
  (m.map Prod.fst).Nodup

/-- The opportunistic eviction sweep shared by both caches: once the map holds
strictly more than 1000 entries, delete every entry whose time stamp is
strictly below the cutoff `oldestAllowed`. -/
def sweepIfLarge {α : Type} (t : α → Int) (oldestAllowed : Int) (m : JsMap α) :
    JsMap α :=
  if m.length > 1000 then
    m.filter (fun p => !(decide (t p.2 < oldestAllowed)))
  else m

/-- `DISPLAY_NAME_CACHE_DURATION = 60 * 60 * 1000` (one hour, in ms). -/
def DISPLAY_NAME_CACHE_DURATION : Int := 60 * 60 * 1000

/-- External collaborators of the fetch path. -/
structure Env where
  /-- `msg.client.guilds.cache.get gid` succeeds (the guild is cached). -/
  guildInCache : String → Bool
  /-- `guild.members.fetch userId`: may throw, or yield `null`, or a member. -/
  fetchMember : String → String → Except Unit (Option GuildMember)
  /-- `channel.messages.fetch { limit }` for a channel id: the raw batch, in
  the insertion order of the underlying fetch, or an upstream failure. -/
  fetchMessages : String → Nat → Except Unit (List Msg)

/-- Process-wide mutable state: the two caches plus instrumentation counters
for the two upstream collaborators. -/
structure St where
  channelCache : JsMap CacheEntry
  displayNameCache : JsMap DisplayNameCacheEntry
  memberFetchCount : Nat
  historyFetchCount : Nat
deriving Repr

/-- The display-name cache key: `` `${msg.guildId}:${msg.author.id}` `` when
`msg.guildId` is truthy, else the bare `msg.author.id`. -/
def dnCacheKey (msg : Msg) : String :=
  if jsTruthy msg.guildId then
    msg.guildId.getD "" ++ ":" ++ msg.author.id
  else
    msg.author.id

/-- `msg.author.globalName || msg.author.username`. -/
def fallbackName (a : Author) : String :=
  jsOr a.globalName a.username

/-- The cache-miss body of `getUserDisplayName`: the nickname / global name /
username decision tree.  Returns the resolved name and whether
`guild.members.fetch` was invoked. -/
def resolveDisplayName (env : Env) (msg : Msg) : String × Bool :=
  if jsTruthy msg.guildId then
    let gid := msg.guildId.getD ""
    if env.guildInCache gid then
      match env.fetchMember gid msg.author.id with
      | Except.ok (some member) =>
          if jsTruthy member.nickname then (member.nickname.getD "", true)
          else (fallbackName msg.author, true)
      | Except.ok none => (fallbackName msg.author, true)
      | Except.error _ => (fallbackName msg.author, true)
    else
      -- `throw new Error("Guild not found in cache")`, caught by the inner catch
      (fallbackName msg.author, false)
  else
    (fallbackName msg.author, false)

/-- The miss path of `getUserDisplayName`: resolve, write back with the current
timestamp, run the opportunistic sweep. -/
def getUserDisplayNameMiss (env : Env) (now : Int) (msg : Msg) (cacheKey : String)
    (st : St) : String × St :=
  ((resolveDisplayName env msg).1,
   { st with
     displayNameCache := sweepIfLarge DisplayNameCacheEntry.lastFetchTime
         (now - DISPLAY_NAME_CACHE_DURATION)
         (jsSet st.displayNameCache cacheKey
           ⟨(resolveDisplayName env msg).1, now⟩),
     memberFetchCount := st.memberFetchCount
         + (if (resolveDisplayName env msg).2 then 1 else 0) })

/-- `getUserDisplayName(msg)` at wall-clock time `now`. -/
def getUserDisplayName (env : Env) (now : Int) (msg : Msg) (st : St) :
    String × St :=
  match jsGet st.displayNameCache (dnCacheKey msg) with
  | some cached =>
    if now - cached.lastFetchTime < DISPLAY_NAME_CACHE_DURATION then
      (cached.displayName, st)
    else
      getUserDisplayNameMiss env now msg (dnCacheKey msg) st
  | none => getUserDisplayNameMiss env now msg (dnCacheKey msg) st

/-- The guard `cached && now - cached.lastFetchTime < DISPLAY_NAME_CACHE_DURATION`
of the display-name cache, as a Bool. -/
def dnFresh (st : St) (now : Int) (key : String) : Bool :=
  match jsGet st.displayNameCache key with
  | some cached => decide (now - cached.lastFetchTime < DISPLAY_NAME_CACHE_DURATION)
  | none => false

/-- Stable insertion of a message into a list already sorted by
`createdTimestamp`: the new message goes after every strictly earlier message
and before every message with an equal or later timestamp. -/
def insertByTs (x : Msg) : List Msg → List Msg
  | [] => [x]
  | y :: ys =>
    if x.createdTimestamp ≤ y.createdTimestamp then x :: y :: ys
    else y :: insertByTs x ys

/-- The stable sort by `createdTimestamp`:
`Array.from(fetched.values()).sort((a, b) => a.createdTimestamp - b.createdTimestamp)`.
(ECMAScript `Array.prototype.sort` is stable, and the stable sort by a
comparator is unique, so stable insertion sort is *the* model.) -/
def sortMessages : List Msg → List Msg
  | [] => []
  | x :: xs => insertByTs x (sortMessages xs)

/-- `new Set(sorted.map(msg => msg.author.id))` materialised in iteration
order: first occurrences, in order. -/
def dedupFirst : List String → List String
  | [] => []
  | x :: xs => x :: dedupFirst (xs.filter (fun y => y ≠ x))
termination_by l => l.length
decreasing_by
  simp only [List.length_cons]
  exact Nat.lt_succ_of_le (List.length_filter_le _ _)

/-- The pre-warm loop: for each unique author id, resolve the display name of
the first message of that author (caching it); the resolved strings are
discarded. -/
def prewarm (env : Env) (now : Int) (sorted : List Msg) :
    List String → St → St
  | [], st => st
  | uid :: uids, st =>
    match sorted.find? (fun m => m.author.id == uid) with
    | some userMsg =>
      prewarm env now sorted uids (getUserDisplayName env now userMsg st).2
    | none => prewarm env now sorted uids st

/-- The formatting map: each sorted message becomes a `ConversationMessage`
with the (now cached) display name, raw text, and ISO timestamp. -/
def formatAll (env : Env) (now : Int) :
    List Msg → St → List ConversationMessage × St
  | [], st => ([], st)
  | m :: ms, st =>
    (⟨(getUserDisplayName env now m st).1, m.content, m.createdAtISO⟩
        :: (formatAll env now ms (getUserDisplayName env now m st).2).1,
     (formatAll env now ms (getUserDisplayName env now m st).2).2)

/-- `fetchConversationFromDiscord(channel, limit)` at time `now`.  The
`historyFetchCount` counter records the upstream `channel.messages.fetch`
call; an upstream failure is caught and re-thrown as
`Error("Failed to fetch conversation history")`, modelled as `Except.error`. -/
def fetchConversationFromDiscord (env : Env) (now : Int) (channelId : String)
    (limit : Nat) (st : St) : Except Unit (List ConversationMessage) × St :=
  match env.fetchMessages channelId limit with
  | Except.error _ =>
    (Except.error (), { st with historyFetchCount := st.historyFetchCount + 1 })
  | Except.ok fetchedBatch =>
    (Except.ok (formatAll env now (sortMessages fetchedBatch)
        (prewarm env now (sortMessages fetchedBatch)
          (dedupFirst ((sortMessages fetchedBatch).map (fun m => m.author.id)))
          { st with historyFetchCount := st.historyFetchCount + 1 })).1,
     (formatAll env now (sortMessages fetchedBatch)
        (prewarm env now (sortMessages fetchedBatch)
          (dedupFirst ((sortMessages fetchedBatch).map (fun m => m.author.id)))
          { st with historyFetchCount := st.historyFetchCount + 1 })).2)

/-- The miss path of `ephemeralFetchConversation`: fetch, store the result
under the channel key with the current timestamp, sweep, return. -/
def ephemeralFetchMiss (env : Env) (now : Int) (channelId : String)
    (limit : Nat) (cacheDurationMs : Int) (st : St) :
    Except Unit (List ConversationMessage) × St :=
  match fetchConversationFromDiscord env now channelId limit st with
  | (Except.error e, st1) => (Except.error e, st1)
  | (Except.ok messages, st1) =>
    (Except.ok messages,
     { st1 with
       channelCache := sweepIfLarge CacheEntry.lastFetchTime
           (now - cacheDurationMs)
           (jsSet st1.channelCache channelId ⟨now, messages⟩) })

/-- `ephemeralFetchConversation(channel, limit, cacheDurationMs)` at time
`now`; the cache key is `channel.id`. -/
def ephemeralFetchConversation (env : Env) (now : Int) (channelId : String)
    (limit : Nat) (cacheDurationMs : Int) (st : St) :
    Except Unit (List ConversationMessage) × St :=
  match jsGet st.channelCache channelId with
  | some cached =>
    if now - cached.lastFetchTime < cacheDurationMs then
      (Except.ok cached.messages, st)
    else
      ephemeralFetchMiss env now channelId limit cacheDurationMs st
  | none => ephemeralFetchMiss env now channelId limit cacheDurationMs st

/-- The guard `cached && now - cached.lastFetchTime < cacheDurationMs` of the
conversation cache, as a Bool. -/
def channelFresh (st : St) (channelId : String) (now ttl : Int) : Bool :=
  match jsGet st.channelCache channelId with
  | some cached => decide (now - cached.lastFetchTime < ttl)
  | none => false

/-! ### Concrete fixtures used by the witness theorems -/

def fxAuthorA : Author := ⟨"uA", "al", none⟩

def fxAuthorB : Author := ⟨"uB", "bob", some "Bea"⟩

def fxMsgA1 : Msg := ⟨fxAuthorA, some "g1", "hi1", 10, "T10"⟩

def fxMsgA2 : Msg := ⟨fxAuthorA, some "g2", "hi2", 11, "T11"⟩

def fxMsgA3 : Msg := ⟨fxAuthorA, some "g1", "hi3", 20, "T20"⟩

def fxMsgB1 : Msg := ⟨fxAuthorB, some "g1", "yo", 15, "T15"⟩

def fxBatch : List Msg := [fxMsgB1, fxMsgA3, fxMsgA1]

def fxConv : ConversationMessage := ⟨"n", "t", "ts"⟩

def fxEntry : CacheEntry := ⟨0, [fxConv]⟩

def fxEnv : Env :=
  { guildInCache := fun _ => true
    fetchMember := fun g _ =>
      if g == "g1" then Except.ok (some ⟨some "Al"⟩)
      else Except.ok (some ⟨some "Ally"⟩)
    fetchMessages := fun _ _ => Except.ok fxBatch }

def fxEnvErr : Env :=
  { guildInCache := fun _ => false
    fetchMember := fun _ _ => Except.error ()
    fetchMessages := fun _ _ => Except.error () }

def fxSt0 : St := ⟨[], [], 0, 0⟩

def fxStHit : St := ⟨[("c", fxEntry)], [], 0, 0⟩

def fxStDN : St := ⟨[], [("g1:uA", ⟨"CachedAl", 0⟩)], 0, 0⟩

/-! ### Basic lemmas about the JS `Map` model -/

theorem jsGet_cons {α : Type} (p : String × α) (m : JsMap α) (k : String) :
    jsGet (p :: m) k = if p.1 == k then some p.2 else jsGet m k := by
  unfold jsGet
  rw [List.find?_cons]
  cases h : p.1 == k <;> simp [h]

theorem jsGet_jsSet_self {α : Type} (m : JsMap α) (k : String) (v : α) :
    jsGet (jsSet m k v) k = some v := by
  induction m with
  | nil => simp [jsSet, jsGet_cons]
  | cons p rest ih =>
    unfold jsSet
    by_cases h : p.1 == k
    · simp [h, jsGet_cons]
    · simp only [h, if_false, Bool.false_eq_true]
      rw [jsGet_cons]
      simp only [h, if_false, Bool.false_eq_true]
      exact ih

theorem jsGet_jsSet_ne {α : Type} (m : JsMap α) (k k' : String) (v : α)
    (h : k' ≠ k) : jsGet (jsSet m k v) k' = jsGet m k' := by
  have hb : ((k : String) == k') = false := by
    simp only [beq_eq_false_iff_ne, ne_eq]
    exact fun hk => h hk.symm
  induction m with
  | nil => simp [jsSet, jsGet_cons, hb, jsGet]
  | cons p rest ih =>
    unfold jsSet
    by_cases hp : p.1 == k
    · have hpk : p.1 = k := by simpa using hp
      have hb2 : (p.1 == k') = false := by rw [hpk]; exact hb
      rw [if_pos hp, jsGet_cons, jsGet_cons]
      simp only [hb, hb2, if_false, Bool.false_eq_true]
    · rw [if_neg hp, jsGet_cons, jsGet_cons]
      by_cases hk : p.1 == k'
      · simp [hk]
      · simp only [hk, if_false, Bool.false_eq_true]
        exact ih

theorem mem_keys_jsSet {α : Type} (m : JsMap α) (k : String) (v : α)
    (a : String) (h : a ∈ (jsSet m k v).map Prod.fst) :
    a = k ∨ a ∈ m.map Prod.fst := by
  induction m with
  | nil => simpa [jsSet] using h
  | cons p rest ih =>
    unfold jsSet at h
    by_cases hp : p.1 == k
    · simp only [hp, if_true, List.map_cons, List.mem_cons] at h
      rcases h with h | h
      · exact Or.inl h
      · exact Or.inr (List.mem_cons_of_mem _ h)
    · simp only [hp, if_false, Bool.false_eq_true, List.map_cons,
        List.mem_cons] at h
      rcases h with h | h
      · exact Or.inr (by rw [List.map_cons]; exact List.mem_cons.mpr (Or.inl h))
      · rcases ih h with h' | h'
        · exact Or.inl h'
        · exact Or.inr (by rw [List.map_cons]; exact List.mem_cons_of_mem _ h')

theorem uniqueKeys_jsSet {α : Type} (m : JsMap α) (k : String) (v : α)
    (h : UniqueKeys m) : UniqueKeys (jsSet m k v) := by
  induction m with
  | nil => simp [jsSet, UniqueKeys]
  | cons p rest ih =>
    unfold UniqueKeys at h
    rw [List.map_cons, List.nodup_cons] at h
    unfold jsSet
    by_cases hp : p.1 == k
    · have hpk : p.1 = k := by simpa using hp
      simp only [hp, if_true]
      unfold UniqueKeys
      rw [List.map_cons, List.nodup_cons]
      exact ⟨hpk ▸ h.1, h.2⟩
    · simp only [hp, if_false, Bool.false_eq_true]
      unfold UniqueKeys
      rw [List.map_cons, List.nodup_cons]
      refine ⟨?_, ih h.2⟩
      intro hmem
      rcases mem_keys_jsSet rest k v p.1 hmem with h' | h'
      · exact hp (by simpa using h')
      · exact h.1 h'

theorem jsGet_eq_none_of_not_mem_keys {α : Type} (m : JsMap α) (k : String)
    (h : k ∉ m.map Prod.fst) : jsGet m k = none := by
  induction m with
  | nil => rfl
  | cons p rest ih =>
    rw [jsGet_cons]
    rw [List.map_cons] at h
    have h1 : p.1 ≠ k := fun hk => h (List.mem_cons.mpr (Or.inl hk.symm))
    have hb : (p.1 == k) = false := by simpa using h1
    simp only [hb, if_false, Bool.false_eq_true]
    exact ih (fun hm => h (List.mem_cons_of_mem _ hm))

/-- Under unique keys, a value-filter of the map resolves lookups exactly:
an entry survives iff it was there and its value passes the filter. -/
theorem jsGet_filterVal_some_iff {α : Type} (keep : α → Bool) (m : JsMap α)
    (k : String) (v : α) (hu : UniqueKeys m) :
    jsGet (m.filter (fun p => keep p.2)) k = some v
      ↔ (jsGet m k = some v ∧ keep v = true) := by
  induction m with
  | nil => simp [jsGet]
  | cons p rest ih =>
    unfold UniqueKeys at hu
    rw [List.map_cons, List.nodup_cons] at hu
    rw [List.filter_cons]
    by_cases hp : p.1 == k
    · have hpk : p.1 = k := by simpa using hp
      by_cases hkeep : keep p.2
      · simp only [hkeep, if_true, jsGet_cons, hp, if_pos]
        constructor
        · rintro h; exact ⟨h, by rw [← Option.some_inj.mp h]; exact hkeep⟩
        · rintro ⟨h, _⟩; exact h
      · simp only [hkeep, if_false, Bool.false_eq_true, jsGet_cons, hp, if_pos]
        have hnone : jsGet (rest.filter (fun p => keep p.2)) k = none := by
          apply jsGet_eq_none_of_not_mem_keys
          intro hmem
          rcases List.mem_map.mp hmem with ⟨q, hq, rfl⟩
          exact hu.1 (hpk ▸ List.mem_map.mpr ⟨q, (List.mem_filter.mp hq).1, rfl⟩)
        rw [hnone]
        constructor
        · intro h; exact absurd h (by simp)
        · rintro ⟨h, hk⟩
          have : v = p.2 := by simpa using h.symm
          rw [this] at hk
          exact absurd hk (by simp [hkeep])
    · by_cases hkeep : keep p.2
      · simp only [hkeep, if_true, jsGet_cons, hp, if_false, Bool.false_eq_true]
        exact ih hu.2
      · simp only [hkeep, if_false, Bool.false_eq_true, jsGet_cons, hp]
        exact ih hu.2

theorem jsGet_filterVal_of_keep {α : Type} (keep : α → Bool) (m : JsMap α)
    (k : String) (v : α) (h : jsGet m k = some v) (hv : keep v = true) :
    jsGet (m.filter (fun p => keep p.2)) k = some v := by
  induction m with
  | nil => simp [jsGet] at h
  | cons p rest ih =>
    rw [jsGet_cons] at h
    rw [List.filter_cons]
    by_cases hp : p.1 == k
    · rw [if_pos hp] at h
      have hv2 : v = p.2 := by simpa using h.symm
      rw [hv2] at hv
      simp only [hv, if_true, jsGet_cons, hp, if_pos]
      rw [hv2]
    · simp only [hp, if_false, Bool.false_eq_true] at h
      by_cases hkeep : keep p.2
      · simp only [hkeep, if_true, jsGet_cons, hp, if_false, Bool.false_eq_true]
        exact ih h
      · simp only [hkeep, if_false, Bool.false_eq_true]
        exact ih h

theorem uniqueKeys_filterVal {α : Type} (keep : α → Bool) (m : JsMap α)
    (hu : UniqueKeys m) : UniqueKeys (m.filter (fun p => keep p.2)) := by
  induction m with
  | nil => simp [UniqueKeys]
  | cons p rest ih =>
    unfold UniqueKeys at hu ⊢
    rw [List.map_cons, List.nodup_cons] at hu
    rw [List.filter_cons]
    by_cases hkeep : keep p.2
    · simp only [hkeep, if_true, List.map_cons, List.nodup_cons]
      refine ⟨?_, ih hu.2⟩
      intro hmem
      rcases List.mem_map.mp hmem with ⟨q, hq, heq⟩
      exact hu.1 (List.mem_map.mpr ⟨q, (List.mem_filter.mp hq).1, heq⟩)
    · simp only [hkeep, if_false, Bool.false_eq_true]
      exact ih hu.2

/-! ### Lemmas about the eviction sweep -/

theorem sweepIfLarge_of_small {α : Type} (t : α → Int) (c : Int) (m : JsMap α)
    (h : m.length ≤ 1000) : sweepIfLarge t c m = m := by
  unfold sweepIfLarge
  rw [if_neg]
  omega

theorem jsGet_sweepIfLarge_of_keep {α : Type} (t : α → Int) (c : Int)
    (m : JsMap α) (k : String) (v : α) (h : jsGet m k = some v)
    (hv : ¬ t v < c) : jsGet (sweepIfLarge t c m) k = some v := by
  unfold sweepIfLarge
  by_cases hl : m.length > 1000
  · rw [if_pos hl]
    exact jsGet_filterVal_of_keep (fun a => !(decide (t a < c))) m k v h
      (by simpa using hv)
  · rw [if_neg hl]; exact h

theorem jsGet_sweepIfLarge_some_iff {α : Type} (t : α → Int) (c : Int)
    (m : JsMap α) (k : String) (v : α) (hu : UniqueKeys m)
    (hl : 1000 < m.length) :
    jsGet (sweepIfLarge t c m) k = some v
      ↔ (jsGet m k = some v ∧ ¬ t v < c) := by
  unfold sweepIfLarge
  rw [if_pos hl]
  constructor
  · intro hx
    obtain ⟨h1, h2⟩ :=
      (jsGet_filterVal_some_iff (fun a => !(decide (t a < c))) m k v hu).mp hx
    exact ⟨h1, by simpa using h2⟩
  · rintro ⟨h1, h2⟩
    exact (jsGet_filterVal_some_iff (fun a => !(decide (t a < c))) m k v hu).mpr
      ⟨h1, by simpa using h2⟩

/-! ### Lemmas about the stable sort by `createdTimestamp` -/

theorem insertByTs_perm (x : Msg) (l : List Msg) :
    List.Perm (insertByTs x l) (x :: l) := by
  induction l with
  | nil => simp [insertByTs]
  | cons y ys ih =>
    unfold insertByTs
    by_cases h : x.createdTimestamp ≤ y.createdTimestamp
    · rw [if_pos h]
    · rw [if_neg h]
      exact List.Perm.trans (List.Perm.cons y ih) (List.Perm.swap x y ys)

theorem sortMessages_perm (l : List Msg) :
    List.Perm (sortMessages l) l := by
  induction l with
  | nil => simp [sortMessages]
  | cons x xs ih =>
    unfold sortMessages
    exact List.Perm.trans (insertByTs_perm x (sortMessages xs))
      (List.Perm.cons x ih)

theorem insertByTs_pairwise (x : Msg) (l : List Msg)
    (h : List.Pairwise (fun a b => a.createdTimestamp ≤ b.createdTimestamp) l) :
    List.Pairwise (fun a b => a.createdTimestamp ≤ b.createdTimestamp)
      (insertByTs x l) := by
  induction l with
  | nil => simp [insertByTs]
  | cons y ys ih =>
    rw [List.pairwise_cons] at h
    unfold insertByTs
    by_cases hc : x.createdTimestamp ≤ y.createdTimestamp
    · rw [if_pos hc, List.pairwise_cons]
      constructor
      · intro b hb
        rcases List.mem_cons.mp hb with rfl | hb'
        · exact hc
        · exact le_trans hc (h.1 b hb')
      · rw [List.pairwise_cons]
        exact h
    · rw [if_neg hc, List.pairwise_cons]
      constructor
      · intro b hb
        have hmem := (insertByTs_perm x ys).mem_iff.mp hb
        rcases List.mem_cons.mp hmem with rfl | hb'
        · omega
        · exact h.1 b hb'
      · exact ih h.2

theorem sortMessages_pairwise (l : List Msg) :
    List.Pairwise (fun a b => a.createdTimestamp ≤ b.createdTimestamp)
      (sortMessages l) := by
  induction l with
  | nil => simp [sortMessages]
  | cons x xs ih => exact insertByTs_pairwise x (sortMessages xs) ih

theorem insertByTs_filter_pos (x : Msg) (l : List Msg) (t : Int)
    (hx : x.createdTimestamp = t) :
    (insertByTs x l).filter (fun m => m.createdTimestamp == t)
      = x :: l.filter (fun m => m.createdTimestamp == t) := by
  induction l with
  | nil => simp [insertByTs, List.filter_cons, hx]
  | cons y ys ih =>
    unfold insertByTs
    by_cases hc : x.createdTimestamp ≤ y.createdTimestamp
    · rw [if_pos hc, List.filter_cons]
      simp [hx]
    · rw [if_neg hc, List.filter_cons, List.filter_cons]
      have hy : (y.createdTimestamp == t) = false := by
        simp only [beq_eq_false_iff_ne, ne_eq]
        omega
      simp only [hy, if_false, Bool.false_eq_true]
      exact ih

theorem insertByTs_filter_neg (x : Msg) (l : List Msg) (t : Int)
    (hx : x.createdTimestamp ≠ t) :
    (insertByTs x l).filter (fun m => m.createdTimestamp == t)
      = l.filter (fun m => m.createdTimestamp == t) := by
  induction l with
  | nil => simp [insertByTs, List.filter_cons, hx]
  | cons y ys ih =>
    unfold insertByTs
    by_cases hc : x.createdTimestamp ≤ y.createdTimestamp
    · rw [if_pos hc, List.filter_cons]
      have hxb : (x.createdTimestamp == t) = false := by
        simp only [beq_eq_false_iff_ne, ne_eq]
        exact hx
      simp only [hxb, if_false, Bool.false_eq_true]
    · rw [if_neg hc, List.filter_cons, List.filter_cons]
      by_cases hy : (y.createdTimestamp == t)
      · simp only [hy, if_true]
        rw [ih]
      · simp only [hy, if_false, Bool.false_eq_true]
        exact ih

/-- Stability of the sort: for each timestamp value, the messages carrying it
appear in the sorted output exactly in their original (insertion) order. -/
theorem sortMessages_filter_ts (l : List Msg) (t : Int) :
    (sortMessages l).filter (fun m => m.createdTimestamp == t)
      = l.filter (fun m => m.createdTimestamp == t) := by
  induction l with
  | nil => simp [sortMessages]
  | cons x xs ih =>
    unfold sortMessages
    by_cases hx : x.createdTimestamp = t
    · rw [insertByTs_filter_pos x (sortMessages xs) t hx, ih, List.filter_cons]
      simp [hx]
    · rw [insertByTs_filter_neg x (sortMessages xs) t hx, ih, List.filter_cons]
      have hxb : (x.createdTimestamp == t) = false := by
        simp only [beq_eq_false_iff_ne, ne_eq]
        exact hx
      simp only [hxb, if_false, Bool.false_eq_true]

/-! ### Lemmas about `dedupFirst` -/

theorem mem_dedupFirst (a : String) (l : List String) :
    a ∈ dedupFirst l ↔ a ∈ l := by
  induction l using dedupFirst.induct with
  | case1 => simp [dedupFirst]
  | case2 x xs ih =>
    unfold dedupFirst
    rw [List.mem_cons, List.mem_cons, ih]
    by_cases hax : a = x
    · simp [hax]
    · simp only [hax, false_or]
      rw [List.mem_filter]
      simp [hax]

theorem dedupFirst_length_eq_card (l : List String) :
    (dedupFirst l).length = l.toFinset.card := by
  induction l using dedupFirst.induct with
  | case1 => simp [dedupFirst]
  | case2 x xs ih =>
    unfold dedupFirst
    rw [List.length_cons, ih, List.toFinset_cons]
    rw [List.toFinset_filter]
    have hf : Finset.filter (fun y => decide (y ≠ x) = true) xs.toFinset
        = xs.toFinset.erase x := by
      rw [← Finset.filter_ne' xs.toFinset x]
      apply Finset.filter_congr
      intro y _
      simp
    rw [hf]
    have : insert x xs.toFinset = insert x (xs.toFinset.erase x) := by
      by_cases hx : x ∈ xs.toFinset
      · rw [Finset.insert_erase hx]
        exact Finset.insert_eq_self.mpr hx
      · rw [Finset.erase_eq_of_not_mem hx]
    rw [this, Finset.card_insert_of_not_mem (Finset.not_mem_erase x _)]

theorem dedupFirst_length_perm (l l' : List String) (h : List.Perm l l') :
    (dedupFirst l).length = (dedupFirst l').length := by
  rw [dedupFirst_length_eq_card, dedupFirst_length_eq_card,
    List.toFinset_eq_of_perm l l' h]

/-! ### Path lemmas for `getUserDisplayName` -/

theorem gud_eq_some (env : Env) (now : Int) (msg : Msg) (st : St)
    (c : DisplayNameCacheEntry)
    (hc : jsGet st.displayNameCache (dnCacheKey msg) = some c) :
    getUserDisplayName env now msg st
      = if now - c.lastFetchTime < DISPLAY_NAME_CACHE_DURATION then
          (c.displayName, st)
        else getUserDisplayNameMiss env now msg (dnCacheKey msg) st := by
  unfold getUserDisplayName
  rw [hc]

theorem gud_eq_none (env : Env) (now : Int) (msg : Msg) (st : St)
    (hc : jsGet st.displayNameCache (dnCacheKey msg) = none) :
    getUserDisplayName env now msg st
      = getUserDisplayNameMiss env now msg (dnCacheKey msg) st := by
  unfold getUserDisplayName
  rw [hc]

theorem gud_hit (env : Env) (now : Int) (msg : Msg) (st : St)
    (c : DisplayNameCacheEntry)
    (hc : jsGet st.displayNameCache (dnCacheKey msg) = some c)
    (hf : now - c.lastFetchTime < DISPLAY_NAME_CACHE_DURATION) :
    getUserDisplayName env now msg st = (c.displayName, st) := by
  rw [gud_eq_some env now msg st c hc, if_pos hf]

theorem gud_snd_of_fresh (env : Env) (now : Int) (msg : Msg) (st : St)
    (h : dnFresh st now (dnCacheKey msg) = true) :
    (getUserDisplayName env now msg st).2 = st := by
  unfold dnFresh at h
  cases hj : jsGet st.displayNameCache (dnCacheKey msg) with
  | none => rw [hj] at h; simp at h
  | some c =>
    rw [hj] at h
    have hf : now - c.lastFetchTime < DISPLAY_NAME_CACHE_DURATION := by
      simpa using h
    rw [gud_eq_some env now msg st c hj, if_pos hf]

theorem gud_miss (env : Env) (now : Int) (msg : Msg) (st : St)
    (h : dnFresh st now (dnCacheKey msg) = false) :
    getUserDisplayName env now msg st
      = getUserDisplayNameMiss env now msg (dnCacheKey msg) st := by
  unfold dnFresh at h
  cases hj : jsGet st.displayNameCache (dnCacheKey msg) with
  | none => exact gud_eq_none env now msg st hj
  | some c =>
    rw [hj] at h
    have hf : ¬ now - c.lastFetchTime < DISPLAY_NAME_CACHE_DURATION := by
      simpa using h
    rw [gud_eq_some env now msg st c hj, if_neg hf]

theorem gud_channelCache (env : Env) (now : Int) (msg : Msg) (st : St) :
    (getUserDisplayName env now msg st).2.channelCache = st.channelCache := by
  cases hj : jsGet st.displayNameCache (dnCacheKey msg) with
  | none => rw [gud_eq_none env now msg st hj]; rfl
  | some c =>
    rw [gud_eq_some env now msg st c hj]
    by_cases hf : now - c.lastFetchTime < DISPLAY_NAME_CACHE_DURATION
    · rw [if_pos hf]
    · rw [if_neg hf]; rfl

theorem gud_historyFetchCount (env : Env) (now : Int) (msg : Msg) (st : St) :
    (getUserDisplayName env now msg st).2.historyFetchCount
      = st.historyFetchCount := by
  cases hj : jsGet st.displayNameCache (dnCacheKey msg) with
  | none => rw [gud_eq_none env now msg st hj]; rfl
  | some c =>
    rw [gud_eq_some env now msg st c hj]
    by_cases hf : now - c.lastFetchTime < DISPLAY_NAME_CACHE_DURATION
    · rw [if_pos hf]
    · rw [if_neg hf]; rfl

theorem gudMiss_memberCount_le (env : Env) (now : Int) (msg : Msg)
    (key : String) (st : St) :
    (getUserDisplayNameMiss env now msg key st).2.memberFetchCount
      ≤ st.memberFetchCount + 1 := by
  show st.memberFetchCount + (if (resolveDisplayName env msg).2 then 1 else 0)
      ≤ st.memberFetchCount + 1
  cases h2 : (resolveDisplayName env msg).2 <;> simp

theorem gud_memberCount_le (env : Env) (now : Int) (msg : Msg) (st : St) :
    (getUserDisplayName env now msg st).2.memberFetchCount
      ≤ st.memberFetchCount + 1 := by
  cases hj : jsGet st.displayNameCache (dnCacheKey msg) with
  | none =>
    rw [gud_eq_none env now msg st hj]
    exact gudMiss_memberCount_le env now msg _ st
  | some c =>
    rw [gud_eq_some env now msg st c hj]
    by_cases hf : now - c.lastFetchTime < DISPLAY_NAME_CACHE_DURATION
    · rw [if_pos hf]
      show st.memberFetchCount ≤ st.memberFetchCount + 1
      omega
    · rw [if_neg hf]
      exact gudMiss_memberCount_le env now msg _ st

theorem gudMiss_fresh (env : Env) (now : Int) (msg : Msg) (key : String)
    (st : St) :
    dnFresh (getUserDisplayNameMiss env now msg key st).2 now key = true := by
  have hset := jsGet_jsSet_self st.displayNameCache key
    ⟨(resolveDisplayName env msg).1, now⟩
  have hkeep : ¬ DisplayNameCacheEntry.lastFetchTime
      ⟨(resolveDisplayName env msg).1, now⟩ < now - DISPLAY_NAME_CACHE_DURATION := by
    show ¬ now < now - DISPLAY_NAME_CACHE_DURATION
    unfold DISPLAY_NAME_CACHE_DURATION
    omega
  have hres := jsGet_sweepIfLarge_of_keep DisplayNameCacheEntry.lastFetchTime
    (now - DISPLAY_NAME_CACHE_DURATION) _ key _ hset hkeep
  show (match jsGet (getUserDisplayNameMiss env now msg key st).2.displayNameCache key with
        | some cached =>
            decide (now - cached.lastFetchTime < DISPLAY_NAME_CACHE_DURATION)
        | none => false) = true
  show (match jsGet (sweepIfLarge DisplayNameCacheEntry.lastFetchTime
          (now - DISPLAY_NAME_CACHE_DURATION)
          (jsSet st.displayNameCache key
            ⟨(resolveDisplayName env msg).1, now⟩)) key with
        | some cached =>
            decide (now - cached.lastFetchTime < DISPLAY_NAME_CACHE_DURATION)
        | none => false) = true
  rw [hres]
  show decide (now - now < DISPLAY_NAME_CACHE_DURATION) = true
  unfold DISPLAY_NAME_CACHE_DURATION
  simp only [decide_eq_true_eq]
  omega

theorem gudMiss_fresh_mono (env : Env) (now : Int) (msg : Msg) (key k : String)
    (st : St) (h : dnFresh st now k = true) :
    dnFresh (getUserDisplayNameMiss env now msg key st).2 now k = true := by
  by_cases hk : k = key
  · rw [hk]; exact gudMiss_fresh env now msg key st
  · unfold dnFresh at h
    cases hj : jsGet st.displayNameCache k with
    | none => rw [hj] at h; simp at h
    | some c =>
      rw [hj] at h
      have hf : now - c.lastFetchTime < DISPLAY_NAME_CACHE_DURATION := by
        simpa using h
      have hset : jsGet (jsSet st.displayNameCache key
          ⟨(resolveDisplayName env msg).1, now⟩) k = some c := by
        rw [jsGet_jsSet_ne _ _ _ _ hk]; exact hj
      have hkeep : ¬ DisplayNameCacheEntry.lastFetchTime c
          < now - DISPLAY_NAME_CACHE_DURATION := by
        show ¬ c.lastFetchTime < now - DISPLAY_NAME_CACHE_DURATION
        omega
      have hres := jsGet_sweepIfLarge_of_keep DisplayNameCacheEntry.lastFetchTime
        (now - DISPLAY_NAME_CACHE_DURATION) _ k _ hset hkeep
      show (match jsGet (sweepIfLarge DisplayNameCacheEntry.lastFetchTime
              (now - DISPLAY_NAME_CACHE_DURATION)
              (jsSet st.displayNameCache key
                ⟨(resolveDisplayName env msg).1, now⟩)) k with
            | some cached =>
                decide (now - cached.lastFetchTime < DISPLAY_NAME_CACHE_DURATION)
            | none => false) = true
      rw [hres]
      simpa using hf

theorem gud_fresh_self (env : Env) (now : Int) (msg : Msg) (st : St) :
    dnFresh (getUserDisplayName env now msg st).2 now (dnCacheKey msg)
      = true := by
  cases hj : jsGet st.displayNameCache (dnCacheKey msg) with
  | none =>
    rw [gud_eq_none env now msg st hj]
    exact gudMiss_fresh env now msg _ st
  | some c =>
    rw [gud_eq_some env now msg st c hj]
    by_cases hf : now - c.lastFetchTime < DISPLAY_NAME_CACHE_DURATION
    · rw [if_pos hf]
      unfold dnFresh
      rw [hj]
      simpa using hf
    · rw [if_neg hf]
      exact gudMiss_fresh env now msg _ st

theorem gud_fresh_mono (env : Env) (now : Int) (msg : Msg) (st : St)
    (k : String) (h : dnFresh st now k = true) :
    dnFresh (getUserDisplayName env now msg st).2 now k = true := by
  cases hj : jsGet st.displayNameCache (dnCacheKey msg) with
  | none =>
    rw [gud_eq_none env now msg st hj]
    exact gudMiss_fresh_mono env now msg _ k st h
  | some c =>
    rw [gud_eq_some env now msg st c hj]
    by_cases hf : now - c.lastFetchTime < DISPLAY_NAME_CACHE_DURATION
    · rw [if_pos hf]; exact h
    · rw [if_neg hf]
      exact gudMiss_fresh_mono env now msg _ k st h

/-! ### Path lemmas for `prewarm` and `formatAll` -/

theorem prewarm_channelCache (env : Env) (now : Int) (sorted : List Msg)
    (uids : List String) (st : St) :
    (prewarm env now sorted uids st).channelCache = st.channelCache := by
  induction uids generalizing st with
  | nil => rfl
  | cons uid rest ih =>
    unfold prewarm
    cases hf : sorted.find? (fun m => m.author.id == uid) with
    | none => exact ih st
    | some m0 => rw [ih]; exact gud_channelCache env now m0 st

theorem prewarm_historyFetchCount (env : Env) (now : Int) (sorted : List Msg)
    (uids : List String) (st : St) :
    (prewarm env now sorted uids st).historyFetchCount
      = st.historyFetchCount := by
  induction uids generalizing st with
  | nil => rfl
  | cons uid rest ih =>
    unfold prewarm
    cases hf : sorted.find? (fun m => m.author.id == uid) with
    | none => exact ih st
    | some m0 => rw [ih]; exact gud_historyFetchCount env now m0 st

theorem prewarm_memberCount_le (env : Env) (now : Int) (sorted : List Msg)
    (uids : List String) (st : St) :
    (prewarm env now sorted uids st).memberFetchCount
      ≤ st.memberFetchCount + uids.length := by
  induction uids generalizing st with
  | nil => simp [prewarm]
  | cons uid rest ih =>
    unfold prewarm
    cases hf : sorted.find? (fun m => m.author.id == uid) with
    | none =>
      have := ih st
      simp only [List.length_cons]
      omega
    | some m0 =>
      have h1 := gud_memberCount_le env now m0 st
      have h2 := ih (getUserDisplayName env now m0 st).2
      simp only [List.length_cons]
      omega

theorem prewarm_fresh_mono (env : Env) (now : Int) (sorted : List Msg)
    (uids : List String) (st : St) (k : String)
    (h : dnFresh st now k = true) :
    dnFresh (prewarm env now sorted uids st) now k = true := by
  induction uids generalizing st with
  | nil => exact h
  | cons uid rest ih =>
    unfold prewarm
    cases hf : sorted.find? (fun m => m.author.id == uid) with
    | none => exact ih st h
    | some m0 => exact ih _ (gud_fresh_mono env now m0 st k h)

theorem prewarm_fresh (env : Env) (now : Int) (sorted : List Msg)
    (uids : List String) (st : St) (uid : String) (m0 : Msg)
    (huid : uid ∈ uids)
    (hfind : sorted.find? (fun m => m.author.id == uid) = some m0) :
    dnFresh (prewarm env now sorted uids st) now (dnCacheKey m0) = true := by
  induction uids generalizing st with
  | nil => cases huid
  | cons u rest ih =>
    unfold prewarm
    rcases List.mem_cons.mp huid with rfl | hmem
    · rw [hfind]
      exact prewarm_fresh_mono env now sorted rest _ _
        (gud_fresh_self env now m0 st)
    · cases hf : sorted.find? (fun m => m.author.id == u) with
      | none => exact ih st hmem
      | some m1 => exact ih _ hmem

theorem formatAll_snd_of_fresh (env : Env) (now : Int) (l : List Msg) (st : St)
    (h : ∀ m ∈ l, dnFresh st now (dnCacheKey m) = true) :
    (formatAll env now l st).2 = st := by
  induction l with
  | nil => rfl
  | cons m ms ih =>
    unfold formatAll
    have h1 : (getUserDisplayName env now m st).2 = st :=
      gud_snd_of_fresh env now m st (h m (List.mem_cons_self m ms))
    simp only [h1]
    exact ih (fun x hx => h x (List.mem_cons_of_mem m hx))

theorem formatAll_channelCache (env : Env) (now : Int) (l : List Msg)
    (st : St) :
    (formatAll env now l st).2.channelCache = st.channelCache := by
  induction l generalizing st with
  | nil => rfl
  | cons m ms ih =>
    unfold formatAll
    rw [ih]
    exact gud_channelCache env now m st

theorem formatAll_historyFetchCount (env : Env) (now : Int) (l : List Msg)
    (st : St) :
    (formatAll env now l st).2.historyFetchCount = st.historyFetchCount := by
  induction l generalizing st with
  | nil => rfl
  | cons m ms ih =>
    unfold formatAll
    rw [ih]
    exact gud_historyFetchCount env now m st

theorem formatAll_fst_text (env : Env) (now : Int) (l : List Msg) (st : St) :
    (formatAll env now l st).1.map (fun c => c.text)
      = l.map (fun m => m.content) := by
  induction l generalizing st with
  | nil => rfl
  | cons m ms ih =>
    unfold formatAll
    simp only [List.map_cons]
    rw [ih]

theorem formatAll_fst_timestamp (env : Env) (now : Int) (l : List Msg)
    (st : St) :
    (formatAll env now l st).1.map (fun c => c.timestamp)
      = l.map (fun m => m.createdAtISO) := by
  induction l generalizing st with
  | nil => rfl
  | cons m ms ih =>
    unfold formatAll
    simp only [List.map_cons]
    rw [ih]

/-! ### Path lemmas for the two fetch functions -/

theorem fetch_error (env : Env) (now : Int) (ch : String) (lim : Nat) (st : St)
    (e : Unit) (h : env.fetchMessages ch lim = Except.error e) :
    fetchConversationFromDiscord env now ch lim st
      = (Except.error (),
         { st with historyFetchCount := st.historyFetchCount + 1 }) := by
  unfold fetchConversationFromDiscord
  rw [h]

theorem fetch_ok (env : Env) (now : Int) (ch : String) (lim : Nat) (st : St)
    (batch : List Msg) (h : env.fetchMessages ch lim = Except.ok batch) :
    fetchConversationFromDiscord env now ch lim st
      = (Except.ok (formatAll env now (sortMessages batch)
            (prewarm env now (sortMessages batch)
              (dedupFirst ((sortMessages batch).map (fun m => m.author.id)))
              { st with historyFetchCount := st.historyFetchCount + 1 })).1,
         (formatAll env now (sortMessages batch)
            (prewarm env now (sortMessages batch)
              (dedupFirst ((sortMessages batch).map (fun m => m.author.id)))
              { st with historyFetchCount := st.historyFetchCount + 1 })).2) := by
  unfold fetchConversationFromDiscord
  rw [h]

theorem fetch_channelCache (env : Env) (now : Int) (ch : String) (lim : Nat)
    (st : St) :
    (fetchConversationFromDiscord env now ch lim st).2.channelCache
      = st.channelCache := by
  unfold fetchConversationFromDiscord
  cases hm : env.fetchMessages ch lim with
  | error e => rfl
  | ok batch =>
    simp only []
    rw [formatAll_channelCache, prewarm_channelCache]

theorem fetch_historyCount (env : Env) (now : Int) (ch : String) (lim : Nat)
    (st : St) :
    (fetchConversationFromDiscord env now ch lim st).2.historyFetchCount
      = st.historyFetchCount + 1 := by
  unfold fetchConversationFromDiscord
  cases hm : env.fetchMessages ch lim with
  | error e => rfl
  | ok batch =>
    simp only []
    rw [formatAll_historyFetchCount, prewarm_historyFetchCount]

theorem eph_eq_some (env : Env) (now : Int) (ch : String) (lim : Nat)
    (ttl : Int) (st : St) (c : CacheEntry)
    (hc : jsGet st.channelCache ch = some c) :
    ephemeralFetchConversation env now ch lim ttl st
      = if now - c.lastFetchTime < ttl then (Except.ok c.messages, st)
        else ephemeralFetchMiss env now ch lim ttl st := by
  unfold ephemeralFetchConversation
  rw [hc]

theorem eph_eq_none (env : Env) (now : Int) (ch : String) (lim : Nat)
    (ttl : Int) (st : St) (hc : jsGet st.channelCache ch = none) :
    ephemeralFetchConversation env now ch lim ttl st
      = ephemeralFetchMiss env now ch lim ttl st := by
  unfold ephemeralFetchConversation
  rw [hc]

theorem eph_hit (env : Env) (now : Int) (ch : String) (lim : Nat) (ttl : Int)
    (st : St) (c : CacheEntry) (hc : jsGet st.channelCache ch = some c)
    (hf : now - c.lastFetchTime < ttl) :
    ephemeralFetchConversation env now ch lim ttl st
      = (Except.ok c.messages, st) := by
  rw [eph_eq_some env now ch lim ttl st c hc, if_pos hf]

theorem eph_miss (env : Env) (now : Int) (ch : String) (lim : Nat) (ttl : Int)
    (st : St) (h : channelFresh st ch now ttl = false) :
    ephemeralFetchConversation env now ch lim ttl st
      = ephemeralFetchMiss env now ch lim ttl st := by
  unfold channelFresh at h
  cases hj : jsGet st.channelCache ch with
  | none => exact eph_eq_none env now ch lim ttl st hj
  | some c =>
    rw [hj] at h
    have hf : ¬ now - c.lastFetchTime < ttl := by simpa using h
    rw [eph_eq_some env now ch lim ttl st c hj, if_neg hf]

theorem ephMiss_historyCount (env : Env) (now : Int) (ch : String) (lim : Nat)
    (ttl : Int) (st : St) :
    (ephemeralFetchMiss env now ch lim ttl st).2.historyFetchCount
      = st.historyFetchCount + 1 := by
  unfold ephemeralFetchMiss
  have hcount := fetch_historyCount env now ch lim st
  cases hr : fetchConversationFromDiscord env now ch lim st with
  | mk r st1 =>
    rw [hr] at hcount
    cases r with
    | error e => simpa using hcount
    | ok messages => simpa using hcount

theorem channelFresh_mono (st st' : St) (ch : String) (now now' ttl : Int)
    (h : channelFresh st ch now ttl = false) (hc : st'.channelCache = st.channelCache)
    (hle : now ≤ now') : channelFresh st' ch now' ttl = false := by
  unfold channelFresh at h ⊢
  rw [hc]
  cases hj : jsGet st.channelCache ch with
  | none => rfl
  | some c =>
    rw [hj] at h
    have : ¬ now - c.lastFetchTime < ttl := by simpa using h
    simp only [decide_eq_false_iff_not]
    omega

theorem dnCacheKey_congr (m m' : Msg) (h1 : m.guildId = m'.guildId)
    (h2 : m.author.id = m'.author.id) : dnCacheKey m = dnCacheKey m' := by
  unfold dnCacheKey
  rw [h1, h2]

theorem ephMiss_ok_eq (env : Env) (now : Int) (ch : String) (lim : Nat)
    (ttl : Int) (st st1 : St) (msgs : List ConversationMessage)
    (h : fetchConversationFromDiscord env now ch lim st
          = (Except.ok msgs, st1)) :
    ephemeralFetchMiss env now ch lim ttl st
      = (Except.ok msgs,
         { st1 with
           channelCache := sweepIfLarge CacheEntry.lastFetchTime (now - ttl)
               (jsSet st1.channelCache ch ⟨now, msgs⟩) }) := by
  unfold ephemeralFetchMiss
  rw [h]

theorem ephMiss_error_eq (env : Env) (now : Int) (ch : String) (lim : Nat)
    (ttl : Int) (st st1 : St) (e : Unit)
    (h : fetchConversationFromDiscord env now ch lim st
          = (Except.error e, st1)) :
    ephemeralFetchMiss env now ch lim ttl st = (Except.error e, st1) := by
  unfold ephemeralFetchMiss
  rw [h]

theorem ephMiss_fst (env : Env) (now : Int) (ch : String) (lim : Nat)
    (ttl : Int) (st : St) :
    (ephemeralFetchMiss env now ch lim ttl st).1
      = (fetchConversationFromDiscord env now ch lim st).1 := by
  unfold ephemeralFetchMiss
  cases hr : fetchConversationFromDiscord env now ch lim st with
  | mk r st1 => cases r <;> rfl

theorem string_append_key_ne (g1 g2 u : String) (h : g1 ≠ g2) :
    g1 ++ ":" ++ u ≠ g2 ++ ":" ++ u := by
  intro hk
  apply h
  have hd := congrArg String.data hk
  simp only [String.data_append] at hd
  rw [List.append_assoc, List.append_assoc] at hd
  exact String.ext (List.append_cancel_right hd)

/-! ### Claim theorems -/

/-- Claim C1: when the conversation cache holds a fresh entry
(`now - lastFetchTime < ttlMs`) for the channel, `ephemeralFetchConversation`
returns the cached message sequence unchanged and performs no upstream fetch
(the whole state, counters included, is untouched); when there is no entry or
the entry is stale, it returns exactly what the fetcher returns, and on
success stores the full result under the channel key with timestamp `now`. -/
theorem ephemeralFetch_cache_semantics (env : Env) (now : Int) (ch : String)
    (lim : Nat) (ttl : Int) (st : St) (h0 : 0 ≤ ttl) :
    (∀ c, jsGet st.channelCache ch = some c → now - c.lastFetchTime < ttl →
        ephemeralFetchConversation env now ch lim ttl st
          = (Except.ok c.messages, st))
    ∧ (channelFresh st ch now ttl = false →
        (ephemeralFetchConversation env now ch lim ttl st).1
            = (fetchConversationFromDiscord env now ch lim st).1
        ∧ ∀ msgs, (fetchConversationFromDiscord env now ch lim st).1
              = Except.ok msgs →
            jsGet (ephemeralFetchConversation env now ch lim ttl st).2.channelCache
                ch = some ⟨now, msgs⟩) := by
  constructor
  · intro c hc hf
    exact eph_hit env now ch lim ttl st c hc hf
  · intro hmiss
    rw [eph_miss env now ch lim ttl st hmiss]
    constructor
    · exact ephMiss_fst env now ch lim ttl st
    · intro msgs hok
      have hsplit : fetchConversationFromDiscord env now ch lim st
          = (Except.ok msgs, (fetchConversationFromDiscord env now ch lim st).2) := by
        rw [← hok]
      rw [ephMiss_ok_eq env now ch lim ttl st _ msgs hsplit]
      show jsGet (sweepIfLarge CacheEntry.lastFetchTime (now - ttl)
          (jsSet (fetchConversationFromDiscord env now ch lim st).2.channelCache
            ch ⟨now, msgs⟩)) ch = some ⟨now, msgs⟩
      apply jsGet_sweepIfLarge_of_keep
      · exact jsGet_jsSet_self _ _ _
      · show ¬ now < now - ttl
        omega

/-- Witness for C1 at a concrete input: a fresh entry written at time 0 is
returned unchanged at time 1 with TTL 5. -/
theorem ephemeralFetch_cache_semantics_witness :
    (0 : Int) ≤ 5
    ∧ jsGet fxStHit.channelCache "c" = some fxEntry
    ∧ ephemeralFetchConversation fxEnv 1 "c" 30 5 fxStHit
        = (Except.ok fxEntry.messages, fxStHit) :=
  ⟨by decide, by decide,
   (ephemeralFetch_cache_semantics fxEnv 1 "c" 30 5 fxStHit (by decide)).1
     fxEntry (by decide) (by decide)⟩

/-- Claim C9: the freshness comparison is strict; at `now - lastFetchTime = ttl`
the entry counts as stale, so the call performs a new upstream fetch (the
history-fetch counter increments) and returns the fetcher result, not the
cached sequence. -/
theorem ttl_boundary_strict (env : Env) (now : Int) (ch : String) (lim : Nat)
    (ttl : Int) (st : St) (c : CacheEntry)
    (hc : jsGet st.channelCache ch = some c)
    (heq : now - c.lastFetchTime = ttl) :
    (ephemeralFetchConversation env now ch lim ttl st).2.historyFetchCount
        = st.historyFetchCount + 1
    ∧ (ephemeralFetchConversation env now ch lim ttl st).1
        = (fetchConversationFromDiscord env now ch lim st).1 := by
  have hmiss : channelFresh st ch now ttl = false := by
    unfold channelFresh
    rw [hc]
    simp only [decide_eq_false_iff_not]
    omega
  rw [eph_miss env now ch lim ttl st hmiss]
  exact ⟨ephMiss_historyCount env now ch lim ttl st,
         ephMiss_fst env now ch lim ttl st⟩

/-- Witness for C9: entry written at 0, call at exactly `ttl = 5`. -/
theorem ttl_boundary_strict_witness :
    jsGet fxStHit.channelCache "c" = some fxEntry
    ∧ (5 : Int) - fxEntry.lastFetchTime = 5
    ∧ (ephemeralFetchConversation fxEnv 5 "c" 30 5 fxStHit).2.historyFetchCount
        = fxStHit.historyFetchCount + 1 :=
  ⟨by decide, by decide,
   (ttl_boundary_strict fxEnv 5 "c" 30 5 fxStHit fxEntry (by decide)
     (by decide)).1⟩

/-- Claim C10: a cache hit is a pure read.  On the hit path both
`getUserDisplayName` and `ephemeralFetchConversation` return the cached value
with the state fully unchanged (in particular `lastFetchTime` is not
refreshed), so expiry is measured from the last write, not the last read. -/
theorem cache_hit_is_pure_read :
    (∀ (env : Env) (now : Int) (msg : Msg) (st : St)
        (c : DisplayNameCacheEntry),
        jsGet st.displayNameCache (dnCacheKey msg) = some c →
        now - c.lastFetchTime < DISPLAY_NAME_CACHE_DURATION →
        getUserDisplayName env now msg st = (c.displayName, st))
    ∧ (∀ (env : Env) (now : Int) (ch : String) (lim : Nat) (ttl : Int)
        (st : St) (c : CacheEntry),
        jsGet st.channelCache ch = some c →
        now - c.lastFetchTime < ttl →
        ephemeralFetchConversation env now ch lim ttl st
          = (Except.ok c.messages, st)) :=
  ⟨gud_hit, eph_hit⟩

/-- Witness for C10: hits on both caches at concrete states. -/
theorem cache_hit_is_pure_read_witness :
    jsGet fxStDN.displayNameCache (dnCacheKey fxMsgA1)
        = some ⟨"CachedAl", 0⟩
    ∧ getUserDisplayName fxEnv 1 fxMsgA1 fxStDN = ("CachedAl", fxStDN)
    ∧ ephemeralFetchConversation fxEnv 1 "c" 30 5 fxStHit
        = (Except.ok fxEntry.messages, fxStHit) :=
  ⟨by decide,
   cache_hit_is_pure_read.1 fxEnv 1 fxMsgA1 fxStDN ⟨"CachedAl", 0⟩
     (by decide) (by decide),
   cache_hit_is_pure_read.2 fxEnv 1 "c" 30 5 fxStHit fxEntry
     (by decide) (by decide)⟩

/-- Claim C8: every miss of the display-name cache (no entry or stale entry)
writes the resolved value back under the computed key with the current
timestamp — whichever fallback tier produced it (`env` is arbitrary). -/
theorem displayName_writeback (env : Env) (now : Int) (msg : Msg) (st : St)
    (hmiss : dnFresh st now (dnCacheKey msg) = false) :
    jsGet (getUserDisplayName env now msg st).2.displayNameCache
        (dnCacheKey msg)
      = some ⟨(getUserDisplayName env now msg st).1, now⟩ := by
  rw [gud_miss env now msg st hmiss]
  show jsGet (sweepIfLarge DisplayNameCacheEntry.lastFetchTime
      (now - DISPLAY_NAME_CACHE_DURATION)
      (jsSet st.displayNameCache (dnCacheKey msg)
        ⟨(resolveDisplayName env msg).1, now⟩)) (dnCacheKey msg)
    = some ⟨(resolveDisplayName env msg).1, now⟩
  apply jsGet_sweepIfLarge_of_keep
  · exact jsGet_jsSet_self _ _ _
  · show ¬ now < now - DISPLAY_NAME_CACHE_DURATION
    unfold DISPLAY_NAME_CACHE_DURATION
    omega

/-- Witness for C8: a cold cache gets the bare-handle fallback written back
under the computed key with the current timestamp. -/
theorem displayName_writeback_witness :
    dnFresh fxSt0 0 (dnCacheKey fxMsgA1) = false
    ∧ jsGet (getUserDisplayName fxEnvErr 0 fxMsgA1 fxSt0).2.displayNameCache
          (dnCacheKey fxMsgA1)
        = some ⟨(getUserDisplayName fxEnvErr 0 fxMsgA1 fxSt0).1, 0⟩ :=
  ⟨by decide, displayName_writeback fxEnvErr 0 fxMsgA1 fxSt0 (by decide)⟩

/-- Claim C3: on a cache miss (no entry or stale entry), if the upstream
history fetch fails, the error propagates to the caller and both caches are
left unchanged — no failure entry and no success entry is stored — so any
later call (any environment, any `now2 ≥ now`) takes the miss path again and
performs the upstream fetch unconditionally. -/
theorem fetch_failure_uncached (env : Env) (now : Int) (ch : String)
    (lim : Nat) (ttl : Int) (st : St)
    (hmiss : channelFresh st ch now ttl = false)
    (herr : env.fetchMessages ch lim = Except.error ()) :
    (ephemeralFetchConversation env now ch lim ttl st).1 = Except.error ()
    ∧ (ephemeralFetchConversation env now ch lim ttl st).2.channelCache
        = st.channelCache
    ∧ (ephemeralFetchConversation env now ch lim ttl st).2.displayNameCache
        = st.displayNameCache
    ∧ ∀ (env2 : Env) (now2 : Int), now ≤ now2 →
        (ephemeralFetchConversation env2 now2 ch lim ttl
            (ephemeralFetchConversation env now ch lim ttl st).2).2.historyFetchCount
          = (ephemeralFetchConversation env now ch lim ttl st).2.historyFetchCount
            + 1 := by
  have heq : ephemeralFetchConversation env now ch lim ttl st
      = (Except.error (),
         { st with historyFetchCount := st.historyFetchCount + 1 }) := by
    rw [eph_miss env now ch lim ttl st hmiss]
    exact ephMiss_error_eq env now ch lim ttl st _ ()
      (fetch_error env now ch lim st () herr)
  rw [heq]
  refine ⟨rfl, rfl, rfl, ?_⟩
  intro env2 now2 hle
  have hmiss2 : channelFresh
      { st with historyFetchCount := st.historyFetchCount + 1 } ch now2 ttl
        = false :=
    channelFresh_mono st _ ch now now2 ttl hmiss rfl hle
  rw [eph_miss env2 now2 ch lim ttl _ hmiss2]
  exact ephMiss_historyCount env2 now2 ch lim ttl _

/-- Witness for C3: failing upstream at time 0, retried at time 3 within the
TTL window of 5 — the retry performs the upstream fetch again. -/
theorem fetch_failure_uncached_witness :
    channelFresh fxSt0 "c" 0 5 = false
    ∧ fxEnvErr.fetchMessages "c" 30 = Except.error ()
    ∧ (ephemeralFetchConversation fxEnvErr 0 "c" 30 5 fxSt0).1
        = Except.error ()
    ∧ (ephemeralFetchConversation fxEnvErr 0 "c" 30 5 fxSt0).2.channelCache
        = fxSt0.channelCache
    ∧ (ephemeralFetchConversation fxEnvErr 3 "c" 30 5
          (ephemeralFetchConversation fxEnvErr 0 "c" 30 5 fxSt0).2).2.historyFetchCount
        = (ephemeralFetchConversation fxEnvErr 0 "c" 30 5 fxSt0).2.historyFetchCount
          + 1 :=
  ⟨by decide, rfl,
   (fetch_failure_uncached fxEnvErr 0 "c" 30 5 fxSt0 (by decide) rfl).1,
   (fetch_failure_uncached fxEnvErr 0 "c" 30 5 fxSt0 (by decide) rfl).2.1,
   (fetch_failure_uncached fxEnvErr 0 "c" 30 5 fxSt0 (by decide)
     rfl).2.2.2 fxEnvErr 3 (by decide)⟩

/-- Claim C4: name resolution never raises (the embedding of
`getUserDisplayName` is a total function); in particular, when the
community-membership lookup for the author fails — the community is not in
the client cache, the member fetch throws, or the member is absent — the
resolved name is the global display name when one is present (truthy), else
the bare handle. -/
theorem displayName_failure_fallback (env : Env) (now : Int) (msg : Msg)
    (st : St) (g : String)
    (hmiss : dnFresh st now (dnCacheKey msg) = false)
    (hg : msg.guildId = some g) (hg2 : g ≠ "")
    (hfail : env.guildInCache g = false
      ∨ env.fetchMember g msg.author.id = Except.error ()
      ∨ env.fetchMember g msg.author.id = Except.ok none) :
    (jsTruthy msg.author.globalName = true →
        (getUserDisplayName env now msg st).1
          = msg.author.globalName.getD "")
    ∧ (jsTruthy msg.author.globalName = false →
        (getUserDisplayName env now msg st).1 = msg.author.username) := by
  have htr : jsTruthy msg.guildId = true := by
    rw [hg]
    simpa [jsTruthy] using hg2
  have hres : (resolveDisplayName env msg).1 = fallbackName msg.author := by
    unfold resolveDisplayName
    rw [htr, if_pos rfl, hg]
    rcases hfail with hf | hf | hf
    · simp only [Option.getD_some, hf, Bool.false_eq_true, if_false]
    · simp only [Option.getD_some, hf]
      cases hcc : env.guildInCache g <;> simp
    · simp only [Option.getD_some, hf]
      cases hcc : env.guildInCache g <;> simp
  rw [gud_miss env now msg st hmiss]
  have hfst : (getUserDisplayNameMiss env now msg (dnCacheKey msg) st).1
      = fallbackName msg.author := hres
  rw [hfst]
  unfold fallbackName jsOr
  constructor
  · intro ht; rw [if_pos ht]
  · intro ht
    rw [if_neg]
    rw [ht]
    exact Bool.false_ne_true

/-- Witness for C4: community uncached and member fetch failing; the author
has no global name, so the bare handle is returned. -/
theorem displayName_failure_fallback_witness :
    dnFresh fxSt0 0 (dnCacheKey fxMsgA1) = false
    ∧ fxMsgA1.guildId = some "g1"
    ∧ fxEnvErr.guildInCache "g1" = false
    ∧ jsTruthy fxMsgA1.author.globalName = false
    ∧ (getUserDisplayName fxEnvErr 0 fxMsgA1 fxSt0).1
        = fxMsgA1.author.username :=
  ⟨by decide, by decide, by decide, by decide,
   (displayName_failure_fallback fxEnvErr 0 fxMsgA1 fxSt0 "g1" (by decide)
     (by decide) (by decide) (Or.inl (by decide))).2 (by decide)⟩

/-- Claim C6: the display-name cache key is `communityId:userId` inside a
community channel and the bare `userId` otherwise; distinct communities give
the same user distinct keys, and concretely the same user resolved in two
communities yields two independent cache entries with different names. -/
theorem dnCacheKey_discriminates :
    (∀ msg : Msg, dnCacheKey msg
        = if jsTruthy msg.guildId then
            msg.guildId.getD "" ++ ":" ++ msg.author.id
          else msg.author.id)
    ∧ (∀ m1 m2 : Msg, jsTruthy m1.guildId = true →
        jsTruthy m2.guildId = true → m1.guildId ≠ m2.guildId →
        m1.author.id = m2.author.id → dnCacheKey m1 ≠ dnCacheKey m2)
    ∧ (jsGet (getUserDisplayName fxEnv 0 fxMsgA2
            (getUserDisplayName fxEnv 0 fxMsgA1 fxSt0).2).2.displayNameCache
          (dnCacheKey fxMsgA1) = some ⟨"Al", 0⟩
       ∧ jsGet (getUserDisplayName fxEnv 0 fxMsgA2
            (getUserDisplayName fxEnv 0 fxMsgA1 fxSt0).2).2.displayNameCache
          (dnCacheKey fxMsgA2) = some ⟨"Ally", 0⟩
       ∧ ("Al" : String) ≠ "Ally") := by
  refine ⟨fun msg => rfl, ?_, by decide, by decide, by decide⟩
  intro m1 m2 h1 h2 hne hid
  unfold dnCacheKey
  rw [h1, h2, if_pos rfl, if_pos rfl, hid]
  cases hg1 : m1.guildId with
  | none => rw [hg1] at h1; simp [jsTruthy] at h1
  | some g1 =>
    cases hg2 : m2.guildId with
    | none => rw [hg2] at h2; simp [jsTruthy] at h2
    | some g2 =>
      simp only [Option.getD_some]
      apply string_append_key_ne
      intro he
      exact hne (by rw [hg1, hg2, he])

/-- Witness for C6: the two concrete messages of the demonstration have
distinct keys by the second conjunct. -/
theorem dnCacheKey_discriminates_witness :
    jsTruthy fxMsgA1.guildId = true
    ∧ jsTruthy fxMsgA2.guildId = true
    ∧ fxMsgA1.guildId ≠ fxMsgA2.guildId
    ∧ fxMsgA1.author.id = fxMsgA2.author.id
    ∧ dnCacheKey fxMsgA1 ≠ dnCacheKey fxMsgA2 :=
  ⟨by decide, by decide, by decide, by decide,
   dnCacheKey_discriminates.2.1 fxMsgA1 fxMsgA2 (by decide) (by decide)
     (by decide) (by decide)⟩

/-- Claim C2: when the upstream history read yields a batch,
`fetchConversationFromDiscord` returns the `ConversationMessage` list obtained
by formatting, in order, the stable sort of the batch by ascending
`createdTimestamp`: the underlying order is a permutation of the batch,
pairwise nondecreasing in timestamp, and for every timestamp value the
messages carrying it keep their original (insertion) order — the sort is
stable. -/
theorem fetchConversation_sorted_stable (env : Env) (now : Int) (ch : String)
    (lim : Nat) (st : St) (batch : List Msg)
    (h : env.fetchMessages ch lim = Except.ok batch) :
    ∃ out, (fetchConversationFromDiscord env now ch lim st).1 = Except.ok out
      ∧ out.map (fun c => c.text) = (sortMessages batch).map (fun m => m.content)
      ∧ out.map (fun c => c.timestamp)
          = (sortMessages batch).map (fun m => m.createdAtISO)
      ∧ List.Perm (sortMessages batch) batch
      ∧ List.Pairwise (fun a b => a.createdTimestamp ≤ b.createdTimestamp)
          (sortMessages batch)
      ∧ ∀ t : Int, (sortMessages batch).filter (fun m => m.createdTimestamp == t)
          = batch.filter (fun m => m.createdTimestamp == t) := by
  refine ⟨(formatAll env now (sortMessages batch)
      (prewarm env now (sortMessages batch)
        (dedupFirst ((sortMessages batch).map (fun m => m.author.id)))
        { st with historyFetchCount := st.historyFetchCount + 1 })).1,
    ?_, ?_, ?_, sortMessages_perm batch, sortMessages_pairwise batch,
    sortMessages_filter_ts batch⟩
  · rw [fetch_ok env now ch lim st batch h]
  · exact formatAll_fst_text env now (sortMessages batch) _
  · exact formatAll_fst_timestamp env now (sortMessages batch) _

/-- Witness for C2 at the concrete three-message batch (timestamps 15, 20,
10): the sorted output carries texts in ascending-timestamp order. -/
theorem fetchConversation_sorted_stable_witness :
    fxEnv.fetchMessages "c1" 30 = Except.ok fxBatch
    ∧ ∃ out, (fetchConversationFromDiscord fxEnv 100 "c1" 30 fxSt0).1
          = Except.ok out
      ∧ out.map (fun c => c.text)
          = (sortMessages fxBatch).map (fun m => m.content)
      ∧ out.map (fun c => c.timestamp)
          = (sortMessages fxBatch).map (fun m => m.createdAtISO)
      ∧ List.Perm (sortMessages fxBatch) fxBatch
      ∧ List.Pairwise (fun a b => a.createdTimestamp ≤ b.createdTimestamp)
          (sortMessages fxBatch)
      ∧ ∀ t : Int, (sortMessages fxBatch).filter (fun m => m.createdTimestamp == t)
          = fxBatch.filter (fun m => m.createdTimestamp == t) :=
  ⟨rfl, fetchConversation_sorted_stable fxEnv 100 "c1" 30 fxSt0 fxBatch rfl⟩

/-- Claim C7: for both caches the eviction sweep runs only on the insert path
and only when the map holds strictly more than 1000 entries after the insert;
it removes exactly the entries with `lastFetchTime` strictly below
`now - TTL` and keeps every other entry, including the one just inserted.
On a hit no sweep runs because the state is returned untouched. -/
theorem sweep_insert_only (env : Env) (now : Int) (ch : String) (lim : Nat)
    (ttl : Int) (st : St) (msg : Msg)
    (hu1 : UniqueKeys st.channelCache) (hu2 : UniqueKeys st.displayNameCache)
    (h0 : 0 ≤ ttl) :
    (channelFresh st ch now ttl = true →
        (ephemeralFetchConversation env now ch lim ttl st).2 = st)
    ∧ (∀ msgs, channelFresh st ch now ttl = false →
        (fetchConversationFromDiscord env now ch lim st).1 = Except.ok msgs →
        ((jsSet st.channelCache ch ⟨now, msgs⟩).length ≤ 1000 →
          (ephemeralFetchConversation env now ch lim ttl st).2.channelCache
            = jsSet st.channelCache ch ⟨now, msgs⟩)
        ∧ (1000 < (jsSet st.channelCache ch ⟨now, msgs⟩).length →
          ∀ k e, jsGet (ephemeralFetchConversation
                env now ch lim ttl st).2.channelCache k = some e
            ↔ (jsGet (jsSet st.channelCache ch ⟨now, msgs⟩) k = some e
               ∧ ¬ e.lastFetchTime < now - ttl))
        ∧ jsGet (ephemeralFetchConversation env now ch lim ttl st).2.channelCache
            ch = some ⟨now, msgs⟩)
    ∧ (dnFresh st now (dnCacheKey msg) = true →
        (getUserDisplayName env now msg st).2 = st)
    ∧ (dnFresh st now (dnCacheKey msg) = false →
        ((jsSet st.displayNameCache (dnCacheKey msg)
            ⟨(getUserDisplayName env now msg st).1, now⟩).length ≤ 1000 →
          (getUserDisplayName env now msg st).2.displayNameCache
            = jsSet st.displayNameCache (dnCacheKey msg)
                ⟨(getUserDisplayName env now msg st).1, now⟩)
        ∧ (1000 < (jsSet st.displayNameCache (dnCacheKey msg)
              ⟨(getUserDisplayName env now msg st).1, now⟩).length →
          ∀ k e, jsGet (getUserDisplayName
                env now msg st).2.displayNameCache k = some e
            ↔ (jsGet (jsSet st.displayNameCache (dnCacheKey msg)
                  ⟨(getUserDisplayName env now msg st).1, now⟩) k = some e
               ∧ ¬ e.lastFetchTime < now - DISPLAY_NAME_CACHE_DURATION))) := by
  refine ⟨?_, ?_, ?_, ?_⟩
  · -- conversation-cache hit: state untouched
    intro hfr
    unfold channelFresh at hfr
    cases hj : jsGet st.channelCache ch with
    | none => rw [hj] at hfr; simp at hfr
    | some c =>
      rw [hj] at hfr
      have hf : now - c.lastFetchTime < ttl := by simpa using hfr
      rw [eph_hit env now ch lim ttl st c hj hf]
  · -- conversation-cache miss with successful fetch
    intro msgs hmiss hok
    have hsplit : fetchConversationFromDiscord env now ch lim st
        = (Except.ok msgs, (fetchConversationFromDiscord env now ch lim st).2) := by
      rw [← hok]
    have hcc : (fetchConversationFromDiscord env now ch lim st).2.channelCache
        = st.channelCache := fetch_channelCache env now ch lim st
    have heq : ephemeralFetchConversation env now ch lim ttl st
        = (Except.ok msgs,
           { (fetchConversationFromDiscord env now ch lim st).2 with
             channelCache := sweepIfLarge CacheEntry.lastFetchTime (now - ttl)
                 (jsSet (fetchConversationFromDiscord
                     env now ch lim st).2.channelCache ch ⟨now, msgs⟩) }) := by
      rw [eph_miss env now ch lim ttl st hmiss]
      exact ephMiss_ok_eq env now ch lim ttl st _ msgs hsplit
    rw [heq]
    show ((jsSet st.channelCache ch ⟨now, msgs⟩).length ≤ 1000 →
        sweepIfLarge CacheEntry.lastFetchTime (now - ttl)
            (jsSet (fetchConversationFromDiscord
                env now ch lim st).2.channelCache ch ⟨now, msgs⟩)
          = jsSet st.channelCache ch ⟨now, msgs⟩)
      ∧ _ ∧ _
    rw [hcc]
    refine ⟨?_, ?_, ?_⟩
    · intro hsmall
      exact sweepIfLarge_of_small _ _ _ hsmall
    · intro hlarge k e
      exact jsGet_sweepIfLarge_some_iff CacheEntry.lastFetchTime (now - ttl)
        _ k e (uniqueKeys_jsSet st.channelCache ch ⟨now, msgs⟩ hu1) hlarge
    · apply jsGet_sweepIfLarge_of_keep
      · exact jsGet_jsSet_self _ _ _
      · show ¬ now < now - ttl
        omega
  · -- display-name cache hit: state untouched
    exact gud_snd_of_fresh env now msg st
  · -- display-name cache miss
    intro hmiss
    have hmeq := gud_miss env now msg st hmiss
    rw [hmeq]
    show ((jsSet st.displayNameCache (dnCacheKey msg)
          ⟨(resolveDisplayName env msg).1, now⟩).length ≤ 1000 →
        sweepIfLarge DisplayNameCacheEntry.lastFetchTime
            (now - DISPLAY_NAME_CACHE_DURATION)
            (jsSet st.displayNameCache (dnCacheKey msg)
              ⟨(resolveDisplayName env msg).1, now⟩)
          = jsSet st.displayNameCache (dnCacheKey msg)
              ⟨(resolveDisplayName env msg).1, now⟩)
      ∧ (1000 < (jsSet st.displayNameCache (dnCacheKey msg)
            ⟨(resolveDisplayName env msg).1, now⟩).length →
        ∀ k e, jsGet (sweepIfLarge DisplayNameCacheEntry.lastFetchTime
              (now - DISPLAY_NAME_CACHE_DURATION)
              (jsSet st.displayNameCache (dnCacheKey msg)
                ⟨(resolveDisplayName env msg).1, now⟩)) k = some e
          ↔ (jsGet (jsSet st.displayNameCache (dnCacheKey msg)
                ⟨(resolveDisplayName env msg).1, now⟩) k = some e
             ∧ ¬ e.lastFetchTime < now - DISPLAY_NAME_CACHE_DURATION))
    refine ⟨?_, ?_⟩
    · intro hsmall
      exact sweepIfLarge_of_small _ _ _ hsmall
    · intro hlarge k e
      exact jsGet_sweepIfLarge_some_iff DisplayNameCacheEntry.lastFetchTime
        (now - DISPLAY_NAME_CACHE_DURATION) _ k e
        (uniqueKeys_jsSet st.displayNameCache (dnCacheKey msg)
          ⟨(resolveDisplayName env msg).1, now⟩ hu2) hlarge

/-- Witness for C7: a hit at a concrete state leaves the state untouched, and
a miss inserts without sweeping while the cache is small. -/
theorem sweep_insert_only_witness :
    channelFresh fxStHit "c" 1 5 = true
    ∧ (ephemeralFetchConversation fxEnv 1 "c" 30 5 fxStHit).2 = fxStHit
    ∧ dnFresh fxSt0 0 (dnCacheKey fxMsgA1) = false
    ∧ (getUserDisplayName fxEnv 0 fxMsgA1 fxSt0).2.displayNameCache
        = jsSet fxSt0.displayNameCache (dnCacheKey fxMsgA1)
            ⟨(getUserDisplayName fxEnv 0 fxMsgA1 fxSt0).1, 0⟩ :=
  ⟨by decide,
   (sweep_insert_only fxEnv 1 "c" 30 5 fxStHit fxMsgA1
     (by unfold UniqueKeys; decide) (by unfold UniqueKeys; decide)
     (by decide)).1 (by decide),
   by decide,
   ((sweep_insert_only fxEnv 0 "c" 30 5 fxSt0 fxMsgA1
     (by unfold UniqueKeys; decide) (by unfold UniqueKeys; decide)
     (by decide)).2.2.2 (by decide)).1 (by decide)⟩

/-- Claim C5: one call of `fetchConversationFromDiscord` on a batch with `d`
distinct authors invokes the community-membership lookup at most `d` times,
however many messages each author posted.  The hypothesis that all messages
of the batch carry the same community context encodes that a batch is fetched
from a single channel. -/
theorem memberLookup_dedup_bound (env : Env) (now : Int) (ch : String)
    (lim : Nat) (st : St) (batch : List Msg) (gid : Option String)
    (hb : env.fetchMessages ch lim = Except.ok batch)
    (hg : ∀ m ∈ batch, m.guildId = gid) :
    (fetchConversationFromDiscord env now ch lim st).2.memberFetchCount
      ≤ st.memberFetchCount
        + (dedupFirst (batch.map (fun m => m.author.id))).length := by
  rw [fetch_ok env now ch lim st batch hb]
  show (formatAll env now (sortMessages batch)
      (prewarm env now (sortMessages batch)
        (dedupFirst ((sortMessages batch).map (fun m => m.author.id)))
        { st with historyFetchCount := st.historyFetchCount + 1 })).2.memberFetchCount
    ≤ st.memberFetchCount + (dedupFirst (batch.map (fun m => m.author.id))).length
  have hfresh : ∀ m ∈ sortMessages batch,
      dnFresh (prewarm env now (sortMessages batch)
        (dedupFirst ((sortMessages batch).map (fun m => m.author.id)))
        { st with historyFetchCount := st.historyFetchCount + 1 }) now
        (dnCacheKey m) = true := by
    intro m hm
    have hmap : m.author.id ∈ (sortMessages batch).map (fun x => x.author.id) :=
      List.mem_map_of_mem _ hm
    have huid : m.author.id
        ∈ dedupFirst ((sortMessages batch).map (fun x => x.author.id)) :=
      (mem_dedupFirst _ _).mpr hmap
    have hsome : ((sortMessages batch).find?
        (fun x => x.author.id == m.author.id)).isSome := by
      rw [List.find?_isSome]
      exact ⟨m, hm, by simp⟩
    obtain ⟨m0, hm0⟩ := Option.isSome_iff_exists.mp hsome
    have hfr := prewarm_fresh env now (sortMessages batch)
      (dedupFirst ((sortMessages batch).map (fun x => x.author.id)))
      { st with historyFetchCount := st.historyFetchCount + 1 }
      m.author.id m0 huid hm0
    have hid : m0.author.id = m.author.id := by
      have := List.find?_some hm0
      simpa using this
    have hm0mem : m0 ∈ sortMessages batch := List.mem_of_find?_eq_some hm0
    have hmb : m ∈ batch := (sortMessages_perm batch).subset hm
    have hm0b : m0 ∈ batch := (sortMessages_perm batch).subset hm0mem
    have hgeq : m0.guildId = m.guildId := by rw [hg m0 hm0b, hg m hmb]
    have hkey : dnCacheKey m0 = dnCacheKey m := dnCacheKey_congr m0 m hgeq hid
    rw [← hkey]
    exact hfr
  rw [formatAll_snd_of_fresh env now (sortMessages batch) _ hfresh]
  have hple := prewarm_memberCount_le env now (sortMessages batch)
    (dedupFirst ((sortMessages batch).map (fun m => m.author.id)))
    { st with historyFetchCount := st.historyFetchCount + 1 }
  have hlen : (dedupFirst ((sortMessages batch).map (fun m => m.author.id))).length
      = (dedupFirst (batch.map (fun m => m.author.id))).length :=
    dedupFirst_length_perm _ _
      ((sortMessages_perm batch).map (fun m => m.author.id))
  have hst : ({ st with historyFetchCount := st.historyFetchCount + 1 }
      : St).memberFetchCount = st.memberFetchCount := rfl
  omega

/-- Witness for C5: three messages from two distinct authors in one community
produce at most two membership lookups. -/
theorem memberLookup_dedup_bound_witness :
    fxEnv.fetchMessages "c1" 30 = Except.ok fxBatch
    ∧ (∀ m ∈ fxBatch, m.guildId = some "g1")
    ∧ (fetchConversationFromDiscord fxEnv 100 "c1" 30 fxSt0).2.memberFetchCount
        ≤ fxSt0.memberFetchCount
          + (dedupFirst (fxBatch.map (fun m => m.author.id))).length :=
  ⟨rfl, by decide,
   memberLookup_dedup_bound fxEnv 100 "c1" 30 fxSt0 fxBatch (some "g1") rfl
     (by decide)⟩

end KindroidDiscord
